import Mathlib

set_option maxRecDepth 8000

/-! Verification development for the hackJS extraction pipeline (hackJS.go).

Strings are modelled as Lean `String` (sequences of Unicode code points).  Go
strings are UTF-8 byte sequences; byte-wise lexicographic order on valid UTF-8
coincides with code-point lexicographic order, so `sort.Strings` and the
byte-level comparisons of the Go `strings` package are modelled at the
code-point level.  Percent-escapes of `net/url` are not interpreted (the model
treats `%` as an ordinary character). -/

/-! ## Model of the Go `strings` package primitives used by hackJS -/

/-- Model of `strings.Contains(s, sub)`: `sub` occurs contiguously in `s`. -/
def hasSubstr (s sub : List Char) : Bool :=
  if sub.isPrefixOf s then true
  else
    match s with
    | [] => false
    | _ :: rest => hasSubstr rest sub

/-- Model of `strings.Contains`. -/
def goContains (s sub : String) : Bool := hasSubstr s.data sub.data

/-- Model of `strings.HasPrefix`. -/
def goHasPrefix (s p : String) : Bool := p.data.isPrefixOf s.data

/-- Model of `strings.HasSuffix`. -/
def goHasSuffix (s suf : String) : Bool := suf.data.isSuffixOf s.data

theorem hasSubstr_iff_infix (s sub : List Char) : hasSubstr s sub = true ↔ sub <:+: s := by
  induction s with
  | nil =>
    rw [hasSubstr]
    cases sub with
    | nil => simp
    | cons c cs => simp [List.isPrefixOf]
  | cons c rest ih =>
    rw [hasSubstr]
    by_cases hp : sub.isPrefixOf (c :: rest)
    · rw [if_pos hp]
      simp only [true_iff]
      obtain ⟨t, ht⟩ := List.isPrefixOf_iff_prefix.mp hp
      exact ⟨[], t, by simpa using ht⟩
    · rw [if_neg hp]
      simp only [ih, List.infix_cons_iff]
      constructor
      · exact Or.inr
      · rintro (h | h)
        · exact absurd (List.isPrefixOf_iff_prefix.mpr h) hp
        · exact h

theorem goContains_iff (s sub : String) : goContains s sub = true ↔ sub.data <:+: s.data :=
  hasSubstr_iff_infix s.data sub.data

theorem goHasSuffix_iff (s suf : String) : goHasSuffix s suf = true ↔ suf.data <:+ s.data := by
  rw [goHasSuffix, List.isSuffixOf, List.isPrefixOf_iff_prefix]
  exact List.reverse_prefix

theorem goContains_nil (s : String) : goContains s ("") = true := by
  rw [goContains_iff]
  exact List.nil_infix

theorem goHasSuffix_nil (s : String) : goHasSuffix s ("") = true := by
  rw [goHasSuffix_iff]
  exact List.nil_suffix

/-! ## Model of `sort.Strings`: lexicographic order and sorting

Go compares strings byte-wise; on valid UTF-8 this is code-point
lexicographic order, which agrees with the order on Lean `String`. -/

/-- Code-point lexicographic comparison of rune lists. -/
def lexLeChars : List Char → List Char → Bool
  | [], _ => true
  | _ :: _, [] => false
  | a :: as, b :: bs => if a < b then true else if a = b then lexLeChars as bs else false

/-- Lexicographic order on strings, as compared by Go `sort.Strings`. -/
def lexLe (a b : String) : Bool := lexLeChars a.data b.data

theorem lexLeChars_iff (a : List Char) : ∀ b : List Char, lexLeChars a b = true ↔ ¬ List.lt b a := by
  induction a with
  | nil =>
    intro b
    rw [lexLeChars.eq_def]
    cases b with
    | nil =>
      simp only [true_iff]
      intro h
      cases h
    | cons c cs =>
      simp only [true_iff]
      intro h
      cases h
  | cons a as ih =>
    intro b
    cases b with
    | nil =>
      rw [lexLeChars]
      simp only [Bool.false_eq_true, false_iff, not_not]
      exact List.lt.nil a as
    | cons b bs =>
      rw [lexLeChars]
      rcases lt_trichotomy a b with h | h | h
      · rw [if_pos h]
        simp only [true_iff]
        intro hlt
        cases hlt with
        | head _ _ hba => exact lt_asymm h hba
        | tail h1 h2 h3 => exact h2 h
      · subst h
        rw [if_neg (lt_irrefl a), if_pos rfl, ih bs]
        constructor
        · intro hn hlt
          cases hlt with
          | head _ _ hba => exact lt_irrefl a hba
          | tail h1 h2 h3 => exact hn h3
        · intro hn hlt
          exact hn (List.lt.tail (lt_irrefl a) (lt_irrefl a) hlt)
      · rw [if_neg (lt_asymm h), if_neg (ne_of_gt h)]
        simp only [Bool.false_eq_true, false_iff, not_not]
        exact List.lt.head bs as h

theorem lexLe_iff (a b : String) : lexLe a b = true ↔ a ≤ b := by
  rw [lexLe, lexLeChars_iff]
  constructor
  · intro h hba
    exact h ((List.lt_iff_lex_lt _ _).mpr (String.lt_iff_toList_lt.mp hba))
  · intro h hlt
    exact h (String.lt_iff_toList_lt.mpr ((List.lt_iff_lex_lt _ _).mp hlt))

/-- One step of insertion sort. -/
def insertStr (x : String) : List String → List String
  | [] => [x]
  | y :: ys => if lexLe x y then x :: y :: ys else y :: insertStr x ys

/-- Model of `sort.Strings` (ascending lexicographic sort).  Since the order
is total and antisymmetric, every correct sorting algorithm returns this list,
so insertion sort is a faithful model of the library sort. -/
def sortStrings : List String → List String
  | [] => []
  | x :: xs => insertStr x (sortStrings xs)

theorem insertStr_perm (x : String) (l : List String) :
    List.Perm (insertStr x l) (x :: l) := by
  induction l with
  | nil => rfl
  | cons y ys ih =>
    rw [insertStr]
    by_cases h : lexLe x y = true
    · rw [if_pos h]
    · rw [if_neg h]
      exact (ih.cons y).trans (List.Perm.swap x y ys)

theorem sortStrings_perm (l : List String) : List.Perm (sortStrings l) l := by
  induction l with
  | nil => rfl
  | cons x xs ih => exact (insertStr_perm x (sortStrings xs)).trans (ih.cons x)

theorem sorted_insertStr (x : String) (l : List String) (h : List.Sorted (· ≤ ·) l) :
    List.Sorted (· ≤ ·) (insertStr x l) := by
  induction l with
  | nil => simp [insertStr]
  | cons y ys ih =>
    rw [insertStr]
    rw [List.sorted_cons] at h
    obtain ⟨hy, hys⟩ := h
    by_cases hxy : lexLe x y = true
    · rw [if_pos hxy]
      have hx : x ≤ y := (lexLe_iff x y).mp hxy
      rw [List.sorted_cons]
      refine ⟨?_, (List.sorted_cons).mpr ⟨hy, hys⟩⟩
      intro z hz
      rcases List.mem_cons.mp hz with rfl | hz'
      · exact hx
      · exact hx.trans (hy z hz')
    · rw [if_neg hxy]
      have hyx : y ≤ x := le_of_not_le (fun hc => hxy ((lexLe_iff x y).mpr hc))
      rw [List.sorted_cons]
      refine ⟨?_, ih hys⟩
      intro z hz
      rcases List.mem_cons.mp (((insertStr_perm x ys).mem_iff).mp hz) with rfl | hz'
      · exact hyx
      · exact hy z hz'

theorem sorted_sortStrings (l : List String) : List.Sorted (· ≤ ·) (sortStrings l) := by
  induction l with
  | nil => simp [sortStrings]
  | cons x xs ih => exact sorted_insertStr x (sortStrings xs) ih

theorem insertStr_of_le (x : String) (l : List String) (h : ∀ z ∈ l, x ≤ z) :
    insertStr x l = x :: l := by
  cases l with
  | nil => rfl
  | cons y ys => rw [insertStr, if_pos ((lexLe_iff x y).mpr (h y (by simp)))]

theorem sortStrings_of_sorted (l : List String) (h : List.Sorted (· ≤ ·) l) :
    sortStrings l = l := by
  induction l with
  | nil => rfl
  | cons x xs ih =>
    rw [List.sorted_cons] at h
    rw [sortStrings, ih h.2, insertStr_of_le x xs h.1]

/-! ## Model of the Go net/url functions used by hackJS

The model mirrors url.Parse, URL.Hostname and URL.String of the Go standard
library (an external collaborator of hackJS.go) for the subset the program
exercises.  Deliberate restriction: percent-escapes are not interpreted (`%`
is an ordinary character), so inputs containing `%` may parse here where Go
would report a bad escape. -/

/-- Control byte test of net/url (b < 0x20 or b = 0x7f); on valid UTF-8 a
code-point check is equivalent to the byte check. -/
def isCtlByte (c : Char) : Bool := decide (c.toNat < 32) || decide (c.toNat = 127)

def isAlphaChar (c : Char) : Bool := decide ('a' ≤ c ∧ c ≤ 'z') || decide ('A' ≤ c ∧ c ≤ 'Z')

def isDigitChar (c : Char) : Bool := decide ('0' ≤ c ∧ c ≤ '9')

/-- Model of the Go URL struct (User modelled as the raw userinfo text;
RawPath/RawQuery escaping identified with the plain fields). -/
structure GoURL where
  scheme : String
  opaq : String
  user : Option String
  host : String
  path : String
  omitHost : Bool
  forceQuery : Bool
  rawQuery : String
  fragment : String
deriving DecidableEq

/-- Split at the first occurrence of `sep` (Go strings.Cut): `none` when
`sep` does not occur, otherwise (before, after). -/
def cutChar (sep : Char) : List Char → Option (List Char × List Char)
  | [] => none
  | c :: rest =>
    if c = sep then some ([], rest)
    else (cutChar sep rest).map (fun p => (c :: p.1, p.2))

/-- Model of net/url getScheme; `none` is the "missing protocol scheme"
error, otherwise (scheme as scanned, remainder).  `orig` is the entire input,
returned when no scheme prefix is present. -/
def getSchemeLoop (orig : List Char) : List Char → List Char → Option (List Char × List Char)
  | _, [] => some ([], orig)
  | acc, c :: rest =>
    if isAlphaChar c then getSchemeLoop orig (c :: acc) rest
    else if isDigitChar c || c = '+' || c = '-' || c = '.' then
      if acc = [] then some ([], orig) else getSchemeLoop orig (c :: acc) rest
    else if c = ':' then
      if acc = [] then none else some (acc.reverse, rest)
    else some ([], orig)

/-- Model of net/url validOptionalPort. -/
def validOptionalPort : List Char → Bool
  | [] => true
  | c :: rest => c = ':' && rest.all isDigitChar

/-- Character set of net/url validUserinfo. -/
def isUserinfoChar (c : Char) : Bool :=
  isAlphaChar c || isDigitChar c ||
    (c = '-' || c = '.' || c = '_' || c = ':' || c = '~' || c = '!' || c = '$' || c = '&' ||
     c = Char.ofNat 39 || c = '(' || c = ')' || c = '*' || c = '+' || c = ',' || c = ';' ||
     c = '=' || c = '%' || c = '@')

/-- Model of net/url parseHost, restricted to escape-free input: validates the
optional port (after the last colon, or after the bracket for a bracketed
host) and returns the host text unchanged. -/
def parseHostGo (host : List Char) : Option (List Char) :=
  match host with
  | '[' :: _ =>
    match cutChar ']' host.reverse with
    | none => none
    | some (revPost, _) =>
      if validOptionalPort revPost.reverse then some host else none
  | _ =>
    match cutChar ':' host.reverse with
    | none => some host
    | some (revPost, _) =>
      if validOptionalPort (':' :: revPost.reverse) then some host else none

/-- Model of net/url parseAuthority: split the userinfo at the last `@`,
validate host and userinfo. -/
def parseAuthorityGo (authority : List Char) : Option (Option String × List Char) :=
  match cutChar '@' authority.reverse with
  | none => (parseHostGo authority).map (fun h => (none, h))
  | some (revHostPart, revUser) =>
    let hostPart := revHostPart.reverse
    let userinfo := revUser.reverse
    match parseHostGo hostPart with
    | none => none
    | some h =>
      if userinfo.all isUserinfoChar then some (some (String.mk userinfo), h) else none

def startsWithSlash : List Char → Bool
  | '/' :: _ => true
  | _ => false

def startsWith2Slash : List Char → Bool
  | '/' :: '/' :: _ => true
  | _ => false

def startsWith3Slash : List Char → Bool
  | '/' :: '/' :: '/' :: _ => true
  | _ => false

/-- Model of net/url parse(rest, viaRequest=false): the fragment has already
been split off by the caller. -/
def parseNoFrag (s : List Char) : Option GoURL :=
  if s.any isCtlByte then none
  else
    match getSchemeLoop s [] s with
    | none => none
    | some (schemeRaw, rest0) =>
      let scheme := schemeRaw.map Char.toLower
      let qsplit :=
        if rest0.getLast? = some '?' ∧ ¬ rest0.dropLast.contains '?' then
          (rest0.dropLast, ([] : List Char), true)
        else
          match cutChar '?' rest0 with
          | none => (rest0, [], false)
          | some (a, b) => (a, b, false)
      let rest1 := qsplit.1
      let rawQuery := qsplit.2.1
      let forceQ := qsplit.2.2
      if ¬ startsWithSlash rest1 = true ∧ scheme ≠ [] then
        some ⟨String.mk scheme, String.mk rest1, none, "", "", false, forceQ,
              String.mk rawQuery, ""⟩
      else if ¬ startsWithSlash rest1 = true ∧ scheme = [] ∧
              (match cutChar '/' rest1 with
               | none => rest1.contains ':'
               | some (seg, _) => seg.contains ':') = true then
        none
      else if (scheme ≠ [] ∨ ¬ startsWith3Slash rest1 = true) ∧ startsWith2Slash rest1 = true then
        let afterSS := rest1.drop 2
        let asplit :=
          match cutChar '/' afterSS with
          | none => (afterSS, ([] : List Char))
          | some (a, b) => (a, '/' :: b)
        match parseAuthorityGo asplit.1 with
        | none => none
        | some (user, host) =>
          some ⟨String.mk scheme, "", user, String.mk host, String.mk asplit.2, false, forceQ,
                String.mk rawQuery, ""⟩
      else
        some ⟨String.mk scheme, "", none, "", String.mk rest1,
              !scheme.isEmpty && startsWithSlash rest1, forceQ, String.mk rawQuery, ""⟩

/-- Model of url.Parse: cut the fragment at the first `#`, parse the rest,
then set the fragment. -/
def parseURL (raw : String) : Option GoURL :=
  match cutChar '#' raw.data with
  | none => parseNoFrag raw.data
  | some (u, frag) => (parseNoFrag u).map (fun g => { g with fragment := String.mk frag })

/-- Model of net/url splitHostPort, returning the host part: strip a valid
optional numeric port after the last colon, then strip square brackets. -/
def splitHostPortHost (host : List Char) : List Char :=
  let h :=
    match cutChar ':' host.reverse with
    | none => host
    | some (revPost, revPre) =>
      if revPost.reverse.all isDigitChar then revPre.reverse else host
  match h with
  | '[' :: rest => if rest.getLast? = some ']' then rest.dropLast else h
  | _ => h

/-- Model of URL.Hostname(). -/
def hostnameOf (u : GoURL) : String := String.mk (splitHostPortHost u.host.data)

def querySuffix (u : GoURL) : String :=
  if u.forceQuery = true ∨ u.rawQuery ≠ "" then ("?" ++ u.rawQuery) else ("")

def fragSuffix (u : GoURL) : String :=
  if u.fragment ≠ "" then ("#" ++ u.fragment) else ("")

/-- Model of URL.String() (escape-free). -/
def urlString (u : GoURL) : String :=
  let s0 := if u.scheme ≠ "" then (u.scheme ++ ":") else ("")
  if u.opaq ≠ "" then s0 ++ u.opaq ++ querySuffix u ++ fragSuffix u
  else
    let s1 :=
      if u.scheme ≠ "" ∨ u.host ≠ "" ∨ u.user.isSome = true then
        if u.omitHost = true ∧ u.host = "" ∧ u.user = none then s0
        else
          let sa := if u.host ≠ "" ∨ u.path ≠ "" ∨ u.user.isSome = true then s0 ++ "//" else s0
          let sb := match u.user with | some ui => sa ++ ui ++ "@" | none => sa
          if u.host ≠ "" then sb ++ u.host else sb
      else s0
    let s2 := if u.path ≠ "" ∧ ¬ startsWithSlash u.path.data = true ∧ u.host ≠ "" then s1 ++ "/"
              else s1
    let s3 :=
      if s2 = "" ∧ (match cutChar '/' u.path.data with
                    | none => u.path.data.contains ':'
                    | some (seg, _) => seg.contains ':') = true then s2 ++ "./"
      else s2
    s3 ++ u.path ++ querySuffix u ++ fragSuffix u

/-! ## The two hackJS URL utilities -/

/-- Embedding of hackJS cleanURL (hackJS.go:317): parse, clear the fragment,
re-serialize; unparseable input is returned unchanged. -/
def cleanURL (dirtyURL : String) : String :=
  match parseURL dirtyURL with
  | none => dirtyURL
  | some u => urlString { u with fragment := "" }

/-- Model of strings.Split with a one-character separator.  `acc` is the
reversed text of the current field. -/
def splitOnCharAux (sep : Char) : List Char → List Char → List (List Char)
  | acc, [] => [acc.reverse]
  | acc, c :: rest =>
    if c = sep then acc.reverse :: splitOnCharAux sep [] rest
    else splitOnCharAux sep (c :: acc) rest

def splitOnChar (sep : Char) (l : List Char) : List (List Char) := splitOnCharAux sep [] l

/-- Embedding of hackJS extractDomain (hackJS.go:326): host of the parsed
URL, last two dot-separated labels when at least two exist; empty string for
an unparseable URL. -/
def extractDomain (rawURL : String) : String :=
  match parseURL rawURL with
  | none => ("")
  | some u =>
    let host := hostnameOf u
    let parts := splitOnChar '.' host.data
    if 2 ≤ parts.length then
      String.mk (parts.getD (parts.length - 2) [] ++ '.' :: parts.getD (parts.length - 1) [])
    else host

/-! ## A small regular-expression interpreter

hackJS matches three concrete Go regular expressions.  Go regexp (RE2
syntax) produces leftmost matches, disambiguated exactly as a backtracking
engine with greedy operators would.  The interpreter below reproduces this:
`runRe` lists every way to match a pattern at the current position in
backtracking priority order, and the bounded combinators `repExact`,
`repOpt` (greedy) express counted repetition; `+` is one copy followed by
`repOpt` bounded by the input length, which is exact because every repeated
body in the patterns below consumes at least one character. -/

inductive Re where
  | cls (p : Char → Bool)
  | lit (cs : List Char)
  | eps
  | cat (r1 r2 : Re)
  | alt (r1 r2 : Re)
  | wb

/-- ASCII word character, as used by the RE2 `\b` assertion. -/
def isWordChar (c : Char) : Bool := isAlphaChar c || isDigitChar c || c = '_'

/-- All ways to match `r` at the boundary between `rev` (input before the
position, reversed) and `s`, in priority order, as (new reversed prefix,
remaining input) pairs. -/
def runRe : Re → List Char → List Char → List (List Char × List Char)
  | .cls p, rev, s =>
    match s with
    | [] => []
    | c :: rest => if p c then [(c :: rev, rest)] else []
  | .lit cs, rev, s =>
    if cs.isPrefixOf s then [(cs.reverse ++ rev, s.drop cs.length)] else []
  | .eps, rev, s => [(rev, s)]
  | .wb, rev, s =>
    let bw := match rev with | [] => false | c :: _ => isWordChar c
    let aw := match s with | [] => false | c :: _ => isWordChar c
    if bw ≠ aw then [(rev, s)] else []
  | .cat r1 r2, rev, s => (runRe r1 rev s).flatMap (fun p => runRe r2 p.1 p.2)
  | .alt r1 r2, rev, s => runRe r1 rev s ++ runRe r2 rev s

/-- Exactly `n` copies. -/
def repExact : Nat → Re → Re
  | 0, _ => .eps
  | n + 1, r => .cat r (repExact n r)

/-- Greedy, at most `n` copies. -/
def repOpt : Nat → Re → Re
  | 0, _ => .eps
  | n + 1, r => .alt (.cat r (repOpt n r)) .eps

/-- Greedy counted repetition (m ≤ count ≤ n). -/
def repRange (m n : Nat) (r : Re) : Re := .cat (repExact m r) (repOpt (n - m) r)

/-- Greedy `+` with the repetition count bounded by `n`. -/
def plusBounded (n : Nat) (r : Re) : Re := .cat r (repOpt n r)

/-- Model of Regexp.FindAllString(s, -1): repeatedly take the first
(leftmost, highest-priority) match; advance one character past an empty
match, otherwise continue right after the match (matches never overlap).
`fuel` bounds the iteration; input length + 1 always suffices. -/
def findAllAux (r : Re) : Nat → List Char → List Char → List (List Char)
  | 0, _, _ => []
  | fuel + 1, rev, s =>
    match runRe r rev s with
    | (rev', s') :: _ =>
      let n := rev'.length - rev.length
      let m := (rev'.take n).reverse
      if n = 0 then
        match s with
        | [] => [m]
        | c :: rest => m :: findAllAux r fuel (c :: rev) rest
      else m :: findAllAux r fuel rev' s'
    | [] =>
      match s with
      | [] => []
      | c :: rest => findAllAux r fuel (c :: rev) rest

def findAllMatches (r : Re) (s : String) : List String :=
  (findAllAux r (s.data.length + 1) [] s.data).map String.mk

/-- Character class `[^\s"<>()']` of the link pattern; RE2 `\s` is
[\t\n\f\r ], and the apostrophe is code point 39. -/
def linkChar (c : Char) : Bool :=
  !(c = ' ' || c = '\t' || c = '\n' || c.toNat = 12 || c = '\r' ||
    c = '"' || c = '<' || c = '>' || c = '(' || c = ')' || c = Char.ofNat 39)

/-- The pattern https?://[^\s"<>()']+ of extractLinks, `+` bounded by `n`. -/
def linkRe (n : Nat) : Re :=
  .cat (.lit ("http".data))
    (.cat (.alt (.lit ['s']) .eps)
      (.cat (.lit ("://".data)) (plusBounded n (.cls linkChar))))

def isLowerAl (c : Char) : Bool := decide ('a' ≤ c ∧ c ≤ 'z')

def isLowerAlnum (c : Char) : Bool := isLowerAl c || isDigitChar c

def isLowerAlnumHyphen (c : Char) : Bool := isLowerAlnum c || c = '-'

/-- One DNS-ish label [a-z0-9](?:[a-z0-9-]{0,61}[a-z0-9])? of the
subdomain pattern. -/
def labelRe : Re :=
  .cat (.cls isLowerAlnum)
    (.alt (.cat (repOpt 61 (.cls isLowerAlnumHyphen)) (.cls isLowerAlnum)) .eps)

def labelDotRe : Re := .cat labelRe (.lit ['.'])

/-- The subdomain pattern \b(?:label\.)+[a-z]{2,6}\b of extractSubdomains,
`+` bounded by `n`. -/
def subdomainRe (n : Nat) : Re :=
  .cat .wb (.cat (plusBounded n labelDotRe) (.cat (repRange 2 6 (.cls isLowerAl)) .wb))

/-! ## The extractors of hackJS -/

/-- Group-1 captures of all matches of src="([^"]+\.js)" in order (Go
FindAllStringSubmatch).  Since `[^"]` excludes the double quote and the
group is followed immediately by `"`, a match starting at a given src="
exists exactly when the run up to the next quote ends in .js with at least
one character before it, and the group then captures that entire run; when
no match starts here the scan advances one character (leftmost search), and
after a match it resumes past the closing quote (non-overlapping). -/
def srcJsCaptures : Nat → List Char → List (List Char)
  | 0, _ => []
  | fuel + 1, s =>
    match s with
    | [] => []
    | _ :: rest =>
      if ("src=\"".data).isPrefixOf s then
        match cutChar '"' (s.drop 5) with
        | some (run, rest') =>
          if 4 ≤ run.length ∧ (".js".data).isSuffixOf run then run :: srcJsCaptures fuel rest'
          else srcJsCaptures fuel rest
        | none => srcJsCaptures fuel rest
      else srcJsCaptures fuel rest

/-- Embedding of hackJS extractJSFiles (hackJS.go:203): for each capture, a
capture not beginning with http is joined to the base URL with a literal
`/`, then cleanURL is applied. -/
def extractJSFiles (html baseURL : String) : List String :=
  (srcJsCaptures (html.data.length + 1) html.data).foldl
    (fun acc cap =>
      let jsFile := String.mk cap
      let jsFile := if goHasPrefix jsFile ("http") = true then jsFile
                    else baseURL ++ "/" ++ jsFile
      acc ++ [cleanURL jsFile])
    []

/-- Embedding of hackJS extractLinks (hackJS.go:234): split the content on
newlines, find all link-pattern matches per line, keep those containing the
base domain and not ending in .js, and record their cleanURL image. -/
def extractLinks (jsContent baseURL : String) : List String :=
  let baseDomain := extractDomain baseURL
  (splitOnChar '\n' jsContent.data).foldl
    (fun acc line =>
      let lineStr := String.mk line
      (findAllMatches (linkRe line.length) lineStr).foldl
        (fun a m =>
          if goContains m baseDomain = true ∧ ¬ goHasSuffix m (".js") = true then a ++ [cleanURL m]
          else a)
        acc)
    []

/-- Embedding of hackJS extractSubdomains (hackJS.go:250): split the content
on newlines, find all subdomain-pattern matches per line, keep those
containing the base domain. -/
def extractSubdomains (jsContent baseURL : String) : List String :=
  let baseDomain := extractDomain baseURL
  (splitOnChar '\n' jsContent.data).foldl
    (fun acc line =>
      let lineStr := String.mk line
      (findAllMatches (subdomainRe line.length) lineStr).foldl
        (fun a m => if goContains m baseDomain = true then a ++ [m] else a)
        acc)
    []

/-! ## The filters, deduplication and the per-target pipeline -/

/-- Shared shape of the "encountered" map loops of filterLinks,
filterSubdomains and removeDuplicates: keep the first occurrence of every
string satisfying `keep`, marking kept strings as encountered. -/
def dedupScan (keep : String → Bool) : List String → List String → List String
  | _, [] => []
  | seen, x :: rest =>
    if x ∈ seen then dedupScan keep seen rest
    else if keep x = true then x :: dedupScan keep (x :: seen) rest
    else dedupScan keep seen rest

/-- Embedding of hackJS filterLinks (hackJS.go:276). -/
def filterLinks (links : List String) (baseURL : String) : List String :=
  let baseDomain := extractDomain baseURL
  dedupScan (fun link => goContains link baseDomain) [] links

/-- Embedding of hackJS filterSubdomains (hackJS.go:289). -/
def filterSubdomains (subdomains : List String) (baseURL : String) : List String :=
  let baseDomain := extractDomain baseURL
  dedupScan (fun s => goHasSuffix s baseDomain) [] subdomains

/-- Embedding of hackJS removeDuplicates (hackJS.go:302): first-occurrence
deduplication, then sort.Strings. -/
def removeDuplicates (elements : List String) : List String :=
  sortStrings (dedupScan (fun _ => true) [] elements)

/-- Embedding of hackJS findSensitiveData (hackJS.go:266); the process-wide
sensitiveWords list is passed explicitly. -/
def findSensitiveData (sensitiveWords : List String) (jsContent jsFile : String) : List String :=
  sensitiveWords.foldl
    (fun ms word =>
      if goContains jsContent word = true then ms ++ ["🔹 " ++ word ++ " ➔ " ++ jsFile]
      else ms)
    []

/-- The four per-target result categories of processURL. -/
structure ResultSet where
  links : List String
  subdomains : List String
  jsFiles : List String
  sensitiveData : List String
deriving DecidableEq

/-- Pure core of hackJS processURL (hackJS.go:130): the page body and a
fetch oracle for script bodies stand in for the HTTP client; a script whose
fetch fails (`none`) is skipped, as the `continue` branch does.  (When no
script reference is found the Go function returns before reporting; the
model still forms the — then empty — result record.) -/
def processURLPure (fetch : String → Option String) (sensitiveWords : List String)
    (targetURL body : String) : ResultSet :=
  let jsFiles := extractJSFiles body targetURL
  let step := fun (acc : List String × List String × List String) (jsFile : String) =>
    match fetch jsFile with
    | none => acc
    | some jsContent =>
      (acc.1 ++ filterLinks (extractLinks jsContent targetURL) targetURL,
       acc.2.1 ++ filterSubdomains (extractSubdomains jsContent targetURL) targetURL,
       acc.2.2 ++ findSensitiveData sensitiveWords jsContent jsFile)
  let r := jsFiles.foldl step ([], [], [])
  { links := removeDuplicates r.1
    subdomains := removeDuplicates r.2.1
    jsFiles := removeDuplicates jsFiles
    sensitiveData := removeDuplicates r.2.2 }

/-! ## Lemmas about the deduplicating loops -/

theorem mem_dedupScan (keep : String → Bool) (l : List String) :
    ∀ (seen : List String) (x : String),
      x ∈ dedupScan keep seen l ↔ x ∈ l ∧ keep x = true ∧ x ∉ seen := by
  induction l with
  | nil =>
    intro seen x
    simp [dedupScan]
  | cons y rest ih =>
    intro seen x
    rw [dedupScan]
    by_cases hy : y ∈ seen
    · rw [if_pos hy, ih]
      constructor
      · rintro ⟨h1, h2, h3⟩
        exact ⟨List.mem_cons_of_mem y h1, h2, h3⟩
      · rintro ⟨h1, h2, h3⟩
        rcases List.mem_cons.mp h1 with rfl | h1'
        · exact absurd hy h3
        · exact ⟨h1', h2, h3⟩
    · by_cases hk : keep y = true
      · rw [if_neg hy, if_pos hk, List.mem_cons, ih]
        constructor
        · rintro (rfl | ⟨h1, h2, h3⟩)
          · exact ⟨List.mem_cons_self _ _, hk, hy⟩
          · exact ⟨List.mem_cons_of_mem y h1, h2, fun hs => h3 (List.mem_cons_of_mem y hs)⟩
        · rintro ⟨h1, h2, h3⟩
          rcases List.mem_cons.mp h1 with rfl | h1'
          · exact Or.inl rfl
          · by_cases hxy : x = y
            · exact Or.inl hxy
            · refine Or.inr ⟨h1', h2, fun hs => ?_⟩
              rcases List.mem_cons.mp hs with h | h
              · exact hxy h
              · exact h3 h
      · rw [if_neg hy, if_neg hk, ih]
        constructor
        · rintro ⟨h1, h2, h3⟩
          exact ⟨List.mem_cons_of_mem y h1, h2, h3⟩
        · rintro ⟨h1, h2, h3⟩
          rcases List.mem_cons.mp h1 with rfl | h1'
          · exact absurd h2 hk
          · exact ⟨h1', h2, h3⟩

theorem nodup_dedupScan (keep : String → Bool) (l : List String) :
    ∀ seen : List String, (dedupScan keep seen l).Nodup := by
  induction l with
  | nil =>
    intro seen
    simp [dedupScan]
  | cons y rest ih =>
    intro seen
    rw [dedupScan]
    by_cases hy : y ∈ seen
    · rw [if_pos hy]
      exact ih seen
    · by_cases hk : keep y = true
      · rw [if_neg hy, if_pos hk, List.nodup_cons]
        refine ⟨fun hmem => ?_, ih (y :: seen)⟩
        exact ((mem_dedupScan keep rest (y :: seen) y).mp hmem).2.2 (List.mem_cons_self y seen)
      · rw [if_neg hy, if_neg hk]
        exact ih seen

theorem dedupScan_eq_self (l : List String) (hl : l.Nodup) :
    ∀ seen : List String, (∀ x ∈ l, x ∉ seen) → dedupScan (fun _ => true) seen l = l := by
  induction l with
  | nil =>
    intro seen _
    rfl
  | cons y rest ih =>
    intro seen hfresh
    rw [dedupScan, if_neg (hfresh y (List.mem_cons_self y rest)), if_pos rfl]
    congr 1
    refine ih (List.Nodup.of_cons hl) (y :: seen) (fun x hx hmem => ?_)
    rcases List.mem_cons.mp hmem with rfl | h
    · exact (List.nodup_cons.mp hl).1 hx
    · exact hfresh x (List.mem_cons_of_mem y hx) h

theorem dedupScan_congr (keep₁ keep₂ : String → Bool) (hk : ∀ x, keep₁ x = keep₂ x)
    (l : List String) : ∀ seen : List String, dedupScan keep₁ seen l = dedupScan keep₂ seen l := by
  induction l with
  | nil =>
    intro seen
    rfl
  | cons y rest ih =>
    intro seen
    rw [dedupScan, dedupScan, hk y]
    by_cases hy : y ∈ seen
    · rw [if_pos hy, if_pos hy, ih]
    · rw [if_neg hy, if_neg hy]
      by_cases h2 : keep₂ y = true
      · rw [if_pos h2, if_pos h2, ih]
      · rw [if_neg h2, if_neg h2, ih]

theorem mem_removeDuplicates (l : List String) (x : String) :
    x ∈ removeDuplicates l ↔ x ∈ l := by
  rw [removeDuplicates, (sortStrings_perm _).mem_iff, mem_dedupScan]
  simp

theorem removeDuplicates_sorted (l : List String) :
    List.Sorted (· ≤ ·) (removeDuplicates l) := sorted_sortStrings _

theorem removeDuplicates_nodup (l : List String) : (removeDuplicates l).Nodup :=
  (sortStrings_perm _).symm.nodup (nodup_dedupScan _ _ [])

/-! ## Helper lemmas for the claims -/

theorem getD_append_two (front : List (List Char)) (b a : List Char) :
    (front ++ [b, a]).getD (front.length + 1) [] = a ∧
      (front ++ [b, a]).getD front.length [] = b := by
  induction front with
  | nil => exact ⟨rfl, rfl⟩
  | cons f fs ih =>
    simp only [List.cons_append, List.length_cons, List.getD_cons_succ]
    exact ih

theorem lastTwo_getD (front : List (List Char)) (b a : List Char) :
    (front ++ [b, a]).getD ((front ++ [b, a]).length - 2) [] = b ∧
      (front ++ [b, a]).getD ((front ++ [b, a]).length - 1) [] = a := by
  have hlen : (front ++ [b, a]).length = front.length + 2 := by simp
  rw [hlen]
  have e1 : front.length + 2 - 2 = front.length := by omega
  have e2 : front.length + 2 - 1 = front.length + 1 := by omega
  rw [e1, e2]
  exact ⟨(getD_append_two front b a).2, (getD_append_two front b a).1⟩

theorem foldlSensitive (jsContent jsFile : String) (ws : List String) :
    ∀ acc : List String,
      ws.foldl
        (fun ms word =>
          if goContains jsContent word = true then ms ++ ["🔹 " ++ word ++ " ➔ " ++ jsFile]
          else ms) acc =
      acc ++ (ws.filter (fun w => goContains jsContent w)).map
        (fun w => ("🔹 " ++ w ++ " ➔ " ++ jsFile)) := by
  induction ws with
  | nil =>
    intro acc
    simp
  | cons w rest ih =>
    intro acc
    rw [List.foldl_cons]
    by_cases h : goContains jsContent w = true
    · rw [if_pos h, ih]
      simp [List.filter_cons, h]
    · rw [if_neg h, ih]
      simp [List.filter_cons, h]

/-! ## The claims -/

/-- C1: every string in the post-filter Links result — removeDuplicates of
filterLinks of extractLinks — contains the registrable domain of the target
(extractDomain of the target URL) as a substring.  filterLinks re-checks
containment on the canonicalized string, so the cleanURL application that
extractLinks performs after its own containment check cannot break the
invariant. -/
theorem links_contain_domain (jsContent targetURL L : String)
    (hL : L ∈ removeDuplicates (filterLinks (extractLinks jsContent targetURL) targetURL)) :
    goContains L (extractDomain targetURL) = true ∧
      (extractDomain targetURL).data <:+: L.data := by
  rw [mem_removeDuplicates] at hL
  simp only [filterLinks] at hL
  have h := (mem_dedupScan _ _ [] L).mp hL
  exact ⟨h.2.1, (goContains_iff _ _).mp h.2.1⟩

theorem links_contain_domain_witness :
    (("https://a.x.co") ∈ removeDuplicates
        (filterLinks (extractLinks ("https://a.x.co") ("https://x.co")) ("https://x.co"))) ∧
      (goContains ("https://a.x.co") (extractDomain ("https://x.co")) = true ∧
        (extractDomain ("https://x.co")).data <:+: ("https://a.x.co" : String).data) :=
  ⟨by decide,
   links_contain_domain ("https://a.x.co") ("https://x.co") ("https://a.x.co") (by decide)⟩

/-- C2: every string in the post-filter Subdomains result — filterSubdomains
of extractSubdomains — ends with the registrable domain of the target
(extractDomain of the target URL) as a suffix. -/
theorem subdomains_end_with_domain (jsContent targetURL S : String)
    (hS : S ∈ filterSubdomains (extractSubdomains jsContent targetURL) targetURL) :
    goHasSuffix S (extractDomain targetURL) = true ∧
      (extractDomain targetURL).data <:+ S.data := by
  simp only [filterSubdomains] at hS
  have h := (mem_dedupScan _ _ [] S).mp hS
  exact ⟨h.2.1, (goHasSuffix_iff _ _).mp h.2.1⟩

theorem subdomains_end_with_domain_witness :
    (("a.x.co") ∈ filterSubdomains (extractSubdomains ("a.x.co") ("https://x.co"))
        ("https://x.co")) ∧
      (goHasSuffix ("a.x.co") (extractDomain ("https://x.co")) = true ∧
        (extractDomain ("https://x.co")).data <:+ ("a.x.co" : String).data) :=
  ⟨by decide, subdomains_end_with_domain ("a.x.co") ("https://x.co") ("a.x.co") (by decide)⟩

/-- C3 counterexample: on markup <script src="/app.js"> with target
https://x.com the extractor yields https://x.com//app.js — the literal `/`
separator is inserted even though the captured path already begins with `/`
— and not https://x.com/app.js as the claim states. -/
theorem extractJSFiles_relative_ne :
    extractJSFiles ("<script src=\"/app.js\">") ("https://x.com") ≠
      [("https://x.com/app.js")] := by decide

/-- C3 amended: on <script src="/app.js"> with target https://x.com the
extractor yields the single script reference https://x.com//app.js: a
captured path not beginning with http is concatenated to the target URL with
one literal `/` separator (which duplicates the slash when the path is
root-relative) and then fragment-stripped. -/
theorem extractJSFiles_relative :
    extractJSFiles ("<script src=\"/app.js\">") ("https://x.com") =
      [("https://x.com//app.js")] := by decide

/-- C4: extractDomain returns the last two dot-separated labels of the
parsed URL's host joined by a dot whenever the host has at least two labels
(so https://sub.example.com/a maps to example.com), returns the host
unchanged when it has fewer than two labels, and returns the empty string
when the URL is unparseable. -/
theorem extractDomain_spec :
    extractDomain ("https://sub.example.com/a") = ("example.com") ∧
    (∀ rawURL : String, parseURL rawURL = none → extractDomain rawURL = ("")) ∧
    (∀ (rawURL : String) (u : GoURL) (front : List (List Char)) (sndLast lastLabel : List Char),
      parseURL rawURL = some u →
      splitOnChar '.' (hostnameOf u).data = front ++ [sndLast, lastLabel] →
      extractDomain rawURL = String.mk (sndLast ++ '.' :: lastLabel)) ∧
    (∀ (rawURL : String) (u : GoURL), parseURL rawURL = some u →
      (splitOnChar '.' (hostnameOf u).data).length < 2 →
      extractDomain rawURL = hostnameOf u) := by
  refine ⟨by decide, ?_, ?_, ?_⟩
  · intro rawURL h
    simp [extractDomain, h]
  · intro rawURL u front sndLast lastLabel hu hsplit
    simp only [extractDomain, hu]
    rw [hsplit, if_pos (show 2 ≤ (front ++ [sndLast, lastLabel]).length by simp)]
    rw [(lastTwo_getD front sndLast lastLabel).1, (lastTwo_getD front sndLast lastLabel).2]
  · intro rawURL u hu hlen
    simp only [extractDomain, hu]
    rw [if_neg (by omega)]

theorem extractDomain_spec_witness :
    extractDomain ("ht\ttp://x") = ("") ∧
      extractDomain ("https://a.b.x.co/p") = String.mk (['x'] ++ '.' :: ['c', 'o']) ∧
      extractDomain ("https://localhost/p") =
        hostnameOf ⟨("https"), (""), none, ("localhost"), ("/p"), false, false, (""), ("")⟩ :=
  ⟨extractDomain_spec.2.1 ("ht\ttp://x") (by decide),
   extractDomain_spec.2.2.1 ("https://a.b.x.co/p")
     ⟨("https"), (""), none, ("a.b.x.co"), ("/p"), false, false, (""), ("")⟩
     [['a'], ['b']] ['x'] ['c', 'o'] (by decide) (by decide),
   extractDomain_spec.2.2.2 ("https://localhost/p")
     ⟨("https"), (""), none, ("localhost"), ("/p"), false, false, (""), ("")⟩
     (by decide) (by decide)⟩

/-- C5: cleanURL clears the fragment component of a parseable URL and
re-serializes it (so https://x.com/a#frag maps to https://x.com/a), and
returns unparseable input unchanged. -/
theorem cleanURL_spec :
    cleanURL ("https://x.com/a#frag") = ("https://x.com/a") ∧
    (∀ s : String, parseURL s = none → cleanURL s = s) ∧
    (∀ (s : String) (u : GoURL), parseURL s = some u →
      cleanURL s = urlString { u with fragment := ("") }) := by
  refine ⟨by decide, ?_, ?_⟩
  · intro s h
    simp [cleanURL, h]
  · intro s u h
    simp [cleanURL, h]

theorem cleanURL_spec_witness :
    cleanURL ("ht\ttp://x") = ("ht\ttp://x") ∧
      cleanURL ("https://x.com/a?q=1#f") =
        urlString ⟨("https"), (""), none, ("x.com"), ("/a"), false, false, ("q=1"), ("")⟩ := by
  refine ⟨cleanURL_spec.2.1 ("ht\ttp://x") (by decide), ?_⟩
  have h := cleanURL_spec.2.2 ("https://x.com/a?q=1#f")
    ⟨("https"), (""), none, ("x.com"), ("/a"), false, false, ("q=1"), ("f")⟩ (by decide)
  rw [h]

/-- C6: when extractDomain of the target is the empty string, both scope
filters are permissive: every input string is kept (the empty string is a
substring and a suffix of every string) and only first-occurrence duplicate
removal is applied — both filters coincide with the deduplication loop of
removeDuplicates before its sort. -/
theorem filters_permissive_on_empty_domain (xs : List String) (baseURL : String)
    (h : extractDomain baseURL = ("")) :
    filterLinks xs baseURL = dedupScan (fun _ => true) [] xs ∧
      filterSubdomains xs baseURL = dedupScan (fun _ => true) [] xs ∧
      (∀ x, x ∈ filterLinks xs baseURL ↔ x ∈ xs) ∧
      (∀ x, x ∈ filterSubdomains xs baseURL ↔ x ∈ xs) := by
  have h1 : filterLinks xs baseURL = dedupScan (fun _ => true) [] xs := by
    simp only [filterLinks, h]
    exact dedupScan_congr _ _ (fun x => goContains_nil x) xs []
  have h2 : filterSubdomains xs baseURL = dedupScan (fun _ => true) [] xs := by
    simp only [filterSubdomains, h]
    exact dedupScan_congr _ _ (fun x => goHasSuffix_nil x) xs []
  refine ⟨h1, h2, ?_, ?_⟩
  · intro x
    rw [h1, mem_dedupScan]
    simp
  · intro x
    rw [h2, mem_dedupScan]
    simp

theorem filters_permissive_witness :
    filterLinks (["b", "a", "b"]) ("abc") = (["b", "a"]) ∧
      filterSubdomains (["b", "a", "b"]) ("abc") = (["b", "a"]) := by
  have h := filters_permissive_on_empty_domain (["b", "a", "b"]) ("abc") (by decide)
  exact ⟨h.1.trans (by decide), h.2.1.trans (by decide)⟩

/-- C7: deduplication is idempotent — removeDuplicates applied to its own
output returns that output. -/
theorem removeDuplicates_idem (xs : List String) :
    removeDuplicates (removeDuplicates xs) = removeDuplicates xs := by
  have hnd : (sortStrings (dedupScan (fun _ => true) [] xs)).Nodup :=
    (sortStrings_perm _).symm.nodup (nodup_dedupScan _ _ [])
  rw [removeDuplicates, removeDuplicates,
    dedupScan_eq_self _ hnd [] (by simp),
    sortStrings_of_sorted _ (sorted_sortStrings _)]

/-- C8: the output of removeDuplicates is always sorted ascending in the
lexicographic order Go `sort.Strings` uses (byte order, which on valid
UTF-8 is the code-point order of Lean strings) and has no duplicates, and
hence so are the four reported categories of the per-target pipeline. -/
theorem results_sorted_nodup :
    (∀ xs : List String,
        List.Sorted (· ≤ ·) (removeDuplicates xs) ∧ (removeDuplicates xs).Nodup) ∧
    ∀ (fetch : String → Option String) (ws : List String) (targetURL body : String),
      (List.Sorted (· ≤ ·) (processURLPure fetch ws targetURL body).links ∧
        (processURLPure fetch ws targetURL body).links.Nodup) ∧
      (List.Sorted (· ≤ ·) (processURLPure fetch ws targetURL body).subdomains ∧
        (processURLPure fetch ws targetURL body).subdomains.Nodup) ∧
      (List.Sorted (· ≤ ·) (processURLPure fetch ws targetURL body).jsFiles ∧
        (processURLPure fetch ws targetURL body).jsFiles.Nodup) ∧
      (List.Sorted (· ≤ ·) (processURLPure fetch ws targetURL body).sensitiveData ∧
        (processURLPure fetch ws targetURL body).sensitiveData.Nodup) := by
  refine ⟨fun xs => ⟨removeDuplicates_sorted xs, removeDuplicates_nodup xs⟩, ?_⟩
  intro fetch ws targetURL body
  exact ⟨⟨removeDuplicates_sorted _, removeDuplicates_nodup _⟩,
    ⟨removeDuplicates_sorted _, removeDuplicates_nodup _⟩,
    ⟨removeDuplicates_sorted _, removeDuplicates_nodup _⟩,
    ⟨removeDuplicates_sorted _, removeDuplicates_nodup _⟩⟩

/-- C9: findSensitiveData reports, in wordlist order, exactly one finding
pairing keyword and script URL for each wordlist entry occurring in the
script body as a case-sensitive substring (goContains being substring
occurrence); with wordlist [SECRET_KEY] and a body containing
SECRET_KEY_1, a finding is reported for that script. -/
theorem findSensitiveData_spec :
    (∀ (ws : List String) (jsContent jsFile : String),
      findSensitiveData ws jsContent jsFile =
        (ws.filter (fun w => goContains jsContent w)).map
          (fun w => ("🔹 " ++ w ++ " ➔ " ++ jsFile))) ∧
    (∀ s sub : String, goContains s sub = true ↔ sub.data <:+: s.data) ∧
    findSensitiveData (["SECRET_KEY"]) ("var k = \"SECRET_KEY_1\";") ("https://x.com/app.js") =
      [("🔹 SECRET_KEY ➔ https://x.com/app.js")] := by
  refine ⟨?_, goContains_iff, by decide⟩
  intro ws jsContent jsFile
  rw [findSensitiveData]
  simpa using foldlSensitive jsContent jsFile ws []

/-- C10: script references are never domain-scoped: the JS Files category is
removeDuplicates of the raw extractJSFiles output, with no scope filter
comparable to filterLinks/filterSubdomains, so every extracted reference —
even one on an entirely different domain than the target — is reported. -/
theorem jsFiles_not_domain_scoped :
    (∀ (fetch : String → Option String) (ws : List String) (targetURL body : String),
      (processURLPure fetch ws targetURL body).jsFiles =
        removeDuplicates (extractJSFiles body targetURL)) ∧
    (∀ (fetch : String → Option String) (ws : List String) (targetURL body r : String),
      r ∈ extractJSFiles body targetURL →
      r ∈ (processURLPure fetch ws targetURL body).jsFiles) ∧
    (("https://cdn.evil.net/lib.js") ∈
        (processURLPure (fun _ => none) [] ("https://x.com")
          ("<script src=\"https://cdn.evil.net/lib.js\">")).jsFiles ∧
      goContains ("https://cdn.evil.net/lib.js") (extractDomain ("https://x.com")) = false) := by
  refine ⟨fun fetch ws targetURL body => rfl, ?_, by decide, by decide⟩
  intro fetch ws targetURL body r hr
  exact (mem_removeDuplicates (extractJSFiles body targetURL) r).mpr hr

theorem jsFiles_not_domain_scoped_witness :
    ("https://cdn.evil.net/lib.js") ∈
      (processURLPure (fun _ => none) [] ("https://x.com")
        ("<script src=\"https://cdn.evil.net/lib.js\">")).jsFiles :=
  jsFiles_not_domain_scoped.2.1 (fun _ => none) [] ("https://x.com")
    ("<script src=\"https://cdn.evil.net/lib.js\">") ("https://cdn.evil.net/lib.js") (by decide)
